import Mathlib

/-!
Verification development for `decrypt-secrets.py` (AspireToKube).

The script's core pipeline is embedded shallowly:
* bytes are `List Nat` with values `< 256` where produced by the embedding;
* Python's `base64.b64decode` / `b64encode` are modelled by `b64decode` /
  `b64encode` (standard alphabet; characters outside the alphabet are
  discarded before the padding check, as CPython's lenient decoder does);
* `hashlib`-level primitives (SHA-256, HMAC, PBKDF2, AES-256-GCM) are
  implemented concretely from their specifications, which is what the
  `cryptography` library calls compute;
* fallible Python code (functions that can raise) returns `Option` /
  `Except`; the catch-all handlers of the script become total functions.
-/

/-- The 64 characters of the standard Base64 alphabet, in value order. -/
def b64Alphabet : List Char :=
  ['A', 'B', 'C', 'D', 'E', 'F', 'G', 'H', 'I', 'J', 'K', 'L', 'M',
   'N', 'O', 'P', 'Q', 'R', 'S', 'T', 'U', 'V', 'W', 'X', 'Y', 'Z',
   'a', 'b', 'c', 'd', 'e', 'f', 'g', 'h', 'i', 'j', 'k', 'l', 'm',
   'n', 'o', 'p', 'q', 'r', 's', 't', 'u', 'v', 'w', 'x', 'y', 'z',
   '0', '1', '2', '3', '4', '5', '6', '7', '8', '9', '+', '/']

/-- Index of a character in a character list, used to invert the alphabet. -/
def charIndex : List Char → Char → Nat → Option Nat
  | [], _, _ => none
  | a :: rest, c, i => if a = c then some i else charIndex rest c (i + 1)

/-- The 6-bit value of a Base64 alphabet character, `none` for other chars. -/
def b64Val (c : Char) : Option Nat := charIndex b64Alphabet c 0

/-- Whether a character belongs to the Base64 alphabet ('=' does not). -/
def isB64 (c : Char) : Bool := (b64Val c).isSome

/-- The alphabet character for a 6-bit value. -/
def b64Chr (n : Nat) : Char := b64Alphabet.getD n 'A'

/-- Base64-encode a byte list: groups of three bytes become four characters,
a trailing group of one or two bytes is padded with `'='`. -/
def encodeChunks : List Nat → List Char
  | [] => []
  | [a] => [b64Chr (a / 4), b64Chr (a % 4 * 16), '=', '=']
  | [a, b] => [b64Chr (a / 4), b64Chr (a % 4 * 16 + b / 16), b64Chr (b % 16 * 4), '=']
  | a :: b :: c :: rest =>
    b64Chr (a / 4) :: b64Chr (a % 4 * 16 + b / 16) ::
    b64Chr (b % 16 * 4 + c / 64) :: b64Chr (c % 64) :: encodeChunks rest

/-- Model of Python's `base64.b64encode` (result as text). -/
def b64encode (bs : List Nat) : String := String.mk (encodeChunks bs)

/-- Decode a run of Base64 data characters: full groups of four yield three
bytes; a final group of two or three characters yields one or two bytes
(spare low-order bits are dropped, as CPython's lenient decoder does).
A final group of a single character is invalid. -/
def decodeQuads : List Char → Option (List Nat)
  | [] => some []
  | [a, b] => do
    let va ← b64Val a
    let vb ← b64Val b
    pure [va * 4 + vb / 16]
  | [a, b, c] => do
    let va ← b64Val a
    let vb ← b64Val b
    let vc ← b64Val c
    pure [va * 4 + vb / 16, vb % 16 * 16 + vc / 4]
  | a :: b :: c :: d :: rest => do
    let va ← b64Val a
    let vb ← b64Val b
    let vc ← b64Val c
    let vd ← b64Val d
    let rs ← decodeQuads rest
    pure ((va * 4 + vb / 16) :: (vb % 16 * 16 + vc / 4) :: (vc % 4 * 64 + vd) :: rs)
  | _ => none

/-- Model of Python's `base64.b64decode` on a character list: characters
outside the alphabet and `'='` are discarded (CPython lenient mode), the
remainder must be data characters followed by at most two `'='` with total
length a multiple of four, and the data characters are then decoded.
Inputs that raise `binascii.Error` in Python are `none` here. -/
def b64decodeChars (cs0 : List Char) : Option (List Nat) :=
  let cs := cs0.filter (fun c => isB64 c || c = '=')
  let ds := cs.takeWhile isB64
  let ps := cs.dropWhile isB64
  if (∀ c ∈ ps, c = '=') ∧ ps.length ≤ 2 ∧ (ds.length + ps.length) % 4 = 0 then
    decodeQuads ds
  else
    none

/-- Model of Python's `base64.b64decode` on text. -/
def b64decode (s : String) : Option (List Nat) := b64decodeChars s.data

/-- CPython's `bytes == bytes` comparison: a length check followed by a
byte-by-byte scan that stops at the first mismatch. The first component is
the boolean result, the second the number of byte comparisons performed
(the time-observable part of the comparison). -/
def eqCmp : List Nat → List Nat → Bool × Nat
  | [], [] => (true, 0)
  | x :: xs, y :: ys =>
    if x = y then
      let r := eqCmp xs ys
      (r.1, r.2 + 1)
    else
      (false, 1)
  | _, _ => (false, 0)

/-- The `derived_key == expected_key` comparison of the script: CPython
compares lengths first and only then scans bytes (via memcmp). -/
def bytesEq (xs ys : List Nat) : Bool × Nat :=
  if xs.length = ys.length then eqCmp xs ys else (false, 0)

/-- Length of the longest common prefix of two byte lists. -/
def commonPrefixLen : List Nat → List Nat → Nat
  | x :: xs, y :: ys => if x = y then commonPrefixLen xs ys + 1 else 0
  | _, _ => 0

/-! ### SHA-256 (FIPS 180-4), HMAC (RFC 2104) and PBKDF2 (RFC 8018)

These are the functions computed by the `cryptography` library calls
`PBKDF2HMAC(algorithm=SHA256, length=32, salt, iterations=1000000)` in
`derive_key_from_password`. Words are `Nat` reduced modulo `2 ^ 32`. -/

/-- Reduce a word modulo `2 ^ 32`. -/
def m32 (x : Nat) : Nat := x % 4294967296

/-- Right-rotation of a 32-bit word. -/
def rotr32 (x n : Nat) : Nat := m32 (x / 2 ^ n + x % 2 ^ n * 2 ^ (32 - n))

/-- Bitwise complement of a 32-bit word. -/
def not32 (x : Nat) : Nat := Nat.xor x 4294967295

/-- SHA-256 round constants. -/
def k256 : List Nat :=
  [1116352408, 1899447441, 3049323471, 3921009573, 961987163, 1508970993,
   2453635748, 2870763221, 3624381080, 310598401, 607225278, 1426881987,
   1925078388, 2162078206, 2614888103, 3248222580, 3835390401, 4022224774,
   264347078, 604807628, 770255983, 1249150122, 1555081692, 1996064986,
   2554220882, 2821834349, 2952996808, 3210313671, 3336571891, 3584528711,
   113926993, 338241895, 666307205, 773529912, 1294757372, 1396182291,
   1695183700, 1986661051, 2177026350, 2456956037, 2730485921, 2820302411,
   3259730800, 3345764771, 3516065817, 3600352804, 4094571909, 275423344,
   430227734, 506948616, 659060556, 883997877, 958139571, 1322822218,
   1537002063, 1747873779, 1955562222, 2024104815, 2227730452, 2361852424,
   2428436474, 2756734187, 3204031479, 3329325298]

/-- SHA-256 initial hash value. -/
def h256init : List Nat :=
  [1779033703, 3144134277, 1013904242, 2773480762,
   1359893119, 2600822924, 528734635, 1541459225]

/-- Big-endian word from a byte list. -/
def beWord (bs : List Nat) : Nat := bs.foldl (fun a b => a * 256 + b) 0

/-- Four big-endian bytes of a 32-bit word. -/
def w2b (w : Nat) : List Nat := [w / 2 ^ 24 % 256, w / 2 ^ 16 % 256, w / 2 ^ 8 % 256, w % 256]

/-- Eight big-endian bytes of a 64-bit quantity. -/
def beBytes8 (n : Nat) : List Nat :=
  [n / 2 ^ 56 % 256, n / 2 ^ 48 % 256, n / 2 ^ 40 % 256, n / 2 ^ 32 % 256,
   n / 2 ^ 24 % 256, n / 2 ^ 16 % 256, n / 2 ^ 8 % 256, n % 256]

/-- Four big-endian bytes of a 32-bit quantity. -/
def beBytes4 (n : Nat) : List Nat := w2b n

def bigSigma0 (x : Nat) : Nat := Nat.xor (rotr32 x 2) (Nat.xor (rotr32 x 13) (rotr32 x 22))

def bigSigma1 (x : Nat) : Nat := Nat.xor (rotr32 x 6) (Nat.xor (rotr32 x 11) (rotr32 x 25))

def smallSigma0 (x : Nat) : Nat := Nat.xor (rotr32 x 7) (Nat.xor (rotr32 x 18) (x / 2 ^ 3))

def smallSigma1 (x : Nat) : Nat := Nat.xor (rotr32 x 17) (Nat.xor (rotr32 x 19) (x / 2 ^ 10))

def shaCh (e f g : Nat) : Nat := Nat.xor (Nat.land e f) (Nat.land (not32 e) g)

def shaMaj (a b c : Nat) : Nat := Nat.xor (Nat.land a b) (Nat.xor (Nat.land a c) (Nat.land b c))

/-- One step of the SHA-256 message schedule, with the schedule kept in
reverse order (most recent word first). -/
def scheduleStep (rws : List Nat) : List Nat :=
  m32 (smallSigma1 (rws.getD 1 0) + rws.getD 6 0 + smallSigma0 (rws.getD 14 0) + rws.getD 15 0)
    :: rws

/-- The 64-word SHA-256 message schedule of one 64-byte chunk. -/
def sha256Schedule (chunk : List Nat) : List Nat :=
  let w16 := (List.range 16).map (fun i => beWord ((chunk.drop (4 * i)).take 4))
  ((List.range 48).foldl (fun rws _ => scheduleStep rws) w16.reverse).reverse

/-- One SHA-256 compression round; the state is the list `[a,b,c,d,e,f,g,h]`. -/
def compressStep (st : List Nat) (kw : Nat × Nat) : List Nat :=
  match st with
  | [a, b, c, d, e, f, g, h] =>
    let t1 := m32 (h + bigSigma1 e + shaCh e f g + kw.1 + kw.2)
    let t2 := m32 (bigSigma0 a + shaMaj a b c)
    [m32 (t1 + t2), a, b, c, m32 (d + t1), e, f, g]
  | other => other

/-- SHA-256 compression of one 64-byte chunk into the running hash value. -/
def sha256Compress (h : List Nat) (chunk : List Nat) : List Nat :=
  let st := ((k256.zip (sha256Schedule chunk)).foldl compressStep h)
  List.zipWith (fun x y => m32 (x + y)) h st

/-- SHA-256 padding: a `0x80` byte, zeros to 56 mod 64, and the 64-bit
big-endian bit length. -/
def sha256Pad (msg : List Nat) : List Nat :=
  msg ++ 128 :: List.replicate ((119 - msg.length % 64) % 64) 0 ++ beBytes8 (8 * msg.length)

/-- SHA-256 of a byte list, as 32 bytes. -/
def sha256 (msg : List Nat) : List Nat :=
  let padded := sha256Pad msg
  let blocks := (List.range (padded.length / 64)).map (fun i => (padded.drop (64 * i)).take 64)
  (blocks.foldl sha256Compress h256init).flatMap w2b

/-- Pointwise xor of two byte lists (truncates to the shorter one). -/
def zipXor (xs ys : List Nat) : List Nat := List.zipWith Nat.xor xs ys

/-- HMAC-SHA-256 (RFC 2104): block size 64 bytes, output 32 bytes. -/
def hmacSha256 (key msg : List Nat) : List Nat :=
  let k0 := if 64 < key.length then sha256 key else key
  let kp := k0 ++ List.replicate (64 - k0.length) 0
  sha256 ((kp.map (fun b => Nat.xor b 0x5c)) ++
    sha256 ((kp.map (fun b => Nat.xor b 0x36)) ++ msg))

/-- The chained-xor loop of PBKDF2's block function: `n` further PRF
applications folded into the accumulator. -/
def pbkdf2Loop (prf : List Nat → List Nat → List Nat) (pw : List Nat) :
    Nat → List Nat → List Nat → List Nat × List Nat
  | 0, acc, u => (acc, u)
  | n + 1, acc, u =>
    let u' := prf pw u
    pbkdf2Loop prf pw n (zipXor acc u') u'

/-- PBKDF2 block function `F(pw, salt, c, i)` (RFC 8018). -/
def pbkdf2F (prf : List Nat → List Nat → List Nat) (pw salt : List Nat) (c i : Nat) : List Nat :=
  let u1 := prf pw (salt ++ beBytes4 i)
  (pbkdf2Loop prf pw (c - 1) u1 u1).1

/-- PBKDF2 (RFC 8018) for a PRF with 32-byte output, such as HMAC-SHA-256. -/
def pbkdf2 (prf : List Nat → List Nat → List Nat) (pw salt : List Nat) (c dkLen : Nat) :
    List Nat :=
  ((List.range ((dkLen + 31) / 32)).flatMap (fun j => pbkdf2F prf pw salt c (j + 1))).take dkLen

/-! ### UTF-8 encoding and decoding

`password.encode('utf-8')` and `plaintext.decode('utf-8')`; the decoder is
strict as in Python: continuation bytes must be in range, overlong forms,
surrogates and code points above `0x10FFFF` are rejected. -/

/-- UTF-8 bytes of one code point. -/
def utf8EncodeChar (c : Char) : List Nat :=
  let n := c.toNat
  if n < 128 then [n]
  else if n < 2048 then [192 + n / 64, 128 + n % 64]
  else if n < 65536 then [224 + n / 4096, 128 + n / 64 % 64, 128 + n % 64]
  else [240 + n / 262144, 128 + n / 4096 % 64, 128 + n / 64 % 64, 128 + n % 64]

/-- Model of Python's `str.encode('utf-8')`. -/
def utf8Encode (s : String) : List Nat := s.data.flatMap utf8EncodeChar

/-- Model of Python's `bytes.decode('utf-8')` (strict): `none` where Python
raises `UnicodeDecodeError`. -/
def utf8Decode : List Nat → Option (List Char)
  | [] => some []
  | b :: rest =>
    if b < 128 then
      (utf8Decode rest).map (fun cs => Char.ofNat b :: cs)
    else if 194 ≤ b ∧ b ≤ 223 then
      match rest with
      | b2 :: rest2 =>
        if 128 ≤ b2 ∧ b2 ≤ 191 then
          (utf8Decode rest2).map (fun cs => Char.ofNat ((b - 192) * 64 + (b2 - 128)) :: cs)
        else none
      | [] => none
    else if 224 ≤ b ∧ b ≤ 239 then
      match rest with
      | b2 :: b3 :: rest3 =>
        if ((b = 224 ∧ 160 ≤ b2 ∧ b2 ≤ 191) ∨
            (225 ≤ b ∧ b ≤ 236 ∧ 128 ≤ b2 ∧ b2 ≤ 191) ∨
            (b = 237 ∧ 128 ≤ b2 ∧ b2 ≤ 159) ∨
            (238 ≤ b ∧ 128 ≤ b2 ∧ b2 ≤ 191)) ∧ 128 ≤ b3 ∧ b3 ≤ 191 then
          (utf8Decode rest3).map
            (fun cs => Char.ofNat ((b - 224) * 4096 + (b2 - 128) * 64 + (b3 - 128)) :: cs)
        else none
      | _ => none
    else if 240 ≤ b ∧ b ≤ 244 then
      match rest with
      | b2 :: b3 :: b4 :: rest4 =>
        if ((b = 240 ∧ 144 ≤ b2 ∧ b2 ≤ 191) ∨
            (241 ≤ b ∧ b ≤ 243 ∧ 128 ≤ b2 ∧ b2 ≤ 191) ∨
            (b = 244 ∧ 128 ≤ b2 ∧ b2 ≤ 143)) ∧
           128 ≤ b3 ∧ b3 ≤ 191 ∧ 128 ≤ b4 ∧ b4 ≤ 191 then
          (utf8Decode rest4).map
            (fun cs =>
              Char.ofNat ((b - 240) * 262144 + (b2 - 128) * 4096 + (b3 - 128) * 64 + (b4 - 128))
                :: cs)
        else none
      | _ => none
    else none

/-! ### AES and GCM (FIPS 197, NIST SP 800-38D)

These are the computations behind `AESGCM(key).decrypt(nonce, data, None)`.
The S-box is computed from the GF(2^8) inverse and the affine map rather
than tabulated. The `cryptography` library accepts 16-, 24- or 32-byte
keys, requires a non-empty nonce, and rejects inputs shorter than the
16-byte tag with `InvalidTag`; those guards are modelled before the cipher
itself runs. -/

/-- Carry-less multiplication in GF(2^8) modulo `x^8 + x^4 + x^3 + x + 1`. -/
def gf8Mul (a b : Nat) : Nat :=
  (((List.range 8).foldl
    (fun acc _ =>
      (if acc.2.2 % 2 = 1 then Nat.xor acc.1 acc.2.1 else acc.1,
       if 128 ≤ acc.2.1 then Nat.xor (acc.2.1 * 2 % 256) 0x1b else acc.2.1 * 2,
       acc.2.2 / 2))
    ((0, a, b) : Nat × Nat × Nat))).1

/-- Power in GF(2^8). -/
def gf8Pow (a : Nat) : Nat → Nat
  | 0 => 1
  | n + 1 => gf8Mul a (gf8Pow a n)

/-- Multiplicative inverse in GF(2^8) (0 maps to 0). -/
def gf8Inv (a : Nat) : Nat := if a = 0 then 0 else gf8Pow a 254

/-- Left-rotation of a byte. -/
def rotl8 (x n : Nat) : Nat := (x * 2 ^ n + x / 2 ^ (8 - n)) % 256

/-- The AES S-box: GF(2^8) inversion followed by the affine transformation. -/
def sboxByte (b : Nat) : Nat :=
  let i := gf8Inv b
  Nat.xor i (Nat.xor (rotl8 i 1) (Nat.xor (rotl8 i 2) (Nat.xor (rotl8 i 3) (Nat.xor (rotl8 i 4) 0x63))))

/-- Rotate a 4-byte word left by one byte. -/
def rotWord (w : List Nat) : List Nat := w.drop 1 ++ w.take 1

/-- Apply the S-box to each byte of a word. -/
def subWord (w : List Nat) : List Nat := w.map sboxByte

/-- AES key expansion (FIPS 197 §5.2) for Nk ∈ {4, 6, 8}; the result is the
list of all round-key words. -/
def keyExpansion (key : List Nat) : List (List Nat) :=
  let nk := key.length / 4
  let nr := nk + 6
  (List.range (4 * (nr + 1) - nk)).foldl
    (fun w _ =>
      let i := w.length
      let prev := w.getD (i - 1) []
      let temp :=
        if i % nk = 0 then
          zipXor (subWord (rotWord prev)) [gf8Pow 2 (i / nk - 1), 0, 0, 0]
        else if 6 < nk ∧ i % nk = 4 then
          subWord prev
        else
          prev
      w ++ [zipXor (w.getD (i - nk) []) temp])
    ((List.range nk).map (fun i => (key.drop (4 * i)).take 4))

/-- The 16 bytes of round key `r`. -/
def roundKey (w : List (List Nat)) (r : Nat) : List Nat := ((w.drop (4 * r)).take 4).flatMap id

/-- AES SubBytes. -/
def subBytes (st : List Nat) : List Nat := st.map sboxByte

/-- AES ShiftRows on the state in column-major byte order. -/
def shiftRows (st : List Nat) : List Nat :=
  [st.getD 0 0, st.getD 5 0, st.getD 10 0, st.getD 15 0,
   st.getD 4 0, st.getD 9 0, st.getD 14 0, st.getD 3 0,
   st.getD 8 0, st.getD 13 0, st.getD 2 0, st.getD 7 0,
   st.getD 12 0, st.getD 1 0, st.getD 6 0, st.getD 11 0]

/-- AES MixColumns. -/
def mixColumns (st : List Nat) : List Nat :=
  (List.range 4).flatMap (fun c =>
    let a0 := st.getD (4 * c) 0
    let a1 := st.getD (4 * c + 1) 0
    let a2 := st.getD (4 * c + 2) 0
    let a3 := st.getD (4 * c + 3) 0
    [Nat.xor (gf8Mul 2 a0) (Nat.xor (gf8Mul 3 a1) (Nat.xor a2 a3)),
     Nat.xor a0 (Nat.xor (gf8Mul 2 a1) (Nat.xor (gf8Mul 3 a2) a3)),
     Nat.xor a0 (Nat.xor a1 (Nat.xor (gf8Mul 2 a2) (gf8Mul 3 a3))),
     Nat.xor (gf8Mul 3 a0) (Nat.xor a1 (Nat.xor a2 (gf8Mul 2 a3)))])

/-- AES forward cipher on one 16-byte block. -/
def aesEncBlock (w : List (List Nat)) (block : List Nat) : List Nat :=
  let nr := w.length / 4 - 1
  let st0 := zipXor block (roundKey w 0)
  let stN := (List.range (nr - 1)).foldl
    (fun st r => zipXor (mixColumns (shiftRows (subBytes st))) (roundKey w (r + 1))) st0
  zipXor (shiftRows (subBytes stN)) (roundKey w nr)

/-- A 16-byte block as a 128-bit number (big-endian). -/
def bytesToN (bs : List Nat) : Nat := bs.foldl (fun a b => a * 256 + b) 0

/-- The 16 big-endian bytes of a 128-bit number. -/
def nToBytes16 (n : Nat) : List Nat := (List.range 16).map (fun i => n / 2 ^ (8 * (15 - i)) % 256)

/-- Multiplication in GCM's GF(2^128) (SP 800-38D §6.3). -/
def gf128Mul (x y : Nat) : Nat :=
  (((List.range 128).foldl
    (fun zv i =>
      (if x / 2 ^ (127 - i) % 2 = 1 then Nat.xor zv.1 zv.2 else zv.1,
       if zv.2 % 2 = 1 then Nat.xor (zv.2 / 2) 0xe1000000000000000000000000000000 else zv.2 / 2))
    ((0, y) : Nat × Nat))).1

/-- A byte list split into 16-byte blocks, the last zero-padded. -/
def padBlocks16 (l : List Nat) : List (List Nat) :=
  (List.range ((l.length + 15) / 16)).map
    (fun i =>
      let b := (l.drop (16 * i)).take 16
      b ++ List.replicate (16 - b.length) 0)

/-- GHASH fold over a block sequence. -/
def ghash (h : Nat) (blocks : List (List Nat)) : Nat :=
  blocks.foldl (fun y b => gf128Mul (Nat.xor y (bytesToN b)) h) 0

/-- The counter block `J0` increased by `i` in its last 32 bits. -/
def inc32 (blk : List Nat) (i : Nat) : List Nat :=
  blk.take 12 ++ beBytes4 ((beWord (blk.drop 12) + i) % 4294967296)

/-- GCM counter-mode keystream application. -/
def gctr (w : List (List Nat)) (j0 ct : List Nat) : List Nat :=
  zipXor ct
    ((List.range ((ct.length + 15) / 16)).flatMap (fun i => aesEncBlock w (inc32 j0 (i + 1))))

/-- The body of GCM authenticated decryption once the library's parameter
guards have passed: recompute the tag over AAD and ciphertext and, on a
match, return the counter-mode decryption. -/
def aesGcmOpenCore (key nonce data aad : List Nat) : Option (List Nat) :=
  let w := keyExpansion key
  let h := bytesToN (aesEncBlock w (List.replicate 16 0))
  let j0 :=
    if nonce.length = 12 then nonce ++ [0, 0, 0, 1]
    else nToBytes16 (ghash h (padBlocks16 nonce ++ [beBytes8 0 ++ beBytes8 (8 * nonce.length)]))
  let ct := data.take (data.length - 16)
  let tag := data.drop (data.length - 16)
  let s := ghash h (padBlocks16 aad ++ padBlocks16 ct ++
    [beBytes8 (8 * aad.length) ++ beBytes8 (8 * ct.length)])
  if tag = zipXor (aesEncBlock w j0) (nToBytes16 s) then some (gctr w j0 ct) else none

/-- Model of `AESGCM(key).decrypt(nonce, data, aad)`: `none` wherever the
library raises (bad key size at `AESGCM(key)`, empty nonce, input shorter
than the 16-byte tag, or tag mismatch). -/
def aesGcmOpen (key nonce data aad : List Nat) : Option (List Nat) :=
  if key.length = 16 ∨ key.length = 24 ∨ key.length = 32 then
    if nonce.length = 0 then none
    else if data.length < 16 then none
    else aesGcmOpenCore key nonce data aad
  else none

/-! ### The script's functions -/

/-- `derive_key_from_password`: Base64-decode the salt and run
PBKDF2-HMAC-SHA-256 with 1,000,000 iterations and 32-byte output over the
UTF-8 password bytes. `none` models the `binascii.Error` escaping when the
salt is not valid Base64; no other check is performed before the KDF. -/
def derive_key_from_password (password : String) (salt_b64 : String) : Option (List Nat) :=
  (b64decode salt_b64).map
    (fun salt_bytes => pbkdf2 hmacSha256 (utf8Encode password) salt_bytes 1000000 32)

/-- `verify_password`: derive the key, Base64-decode the stored hash and
compare with `==`; the `except Exception: return False` handler makes every
failure path return `false`. -/
def verify_password (password : String) (salt_b64 : String) (expected_hash_b64 : String) : Bool :=
  match derive_key_from_password password salt_b64, b64decode expected_hash_b64 with
  | some derived_key, some expected_key => (bytesEq derived_key expected_key).1
  | _, _ => false

/-- `decrypt_value`: Base64-decode the blob, slice nonce `[:12]`,
tag `[12:12+tag_size]` and ciphertext `[12+tag_size:]`, AES-GCM-decrypt
`ciphertext + tag` with no associated data, and UTF-8-decode the result.
Every exception is re-raised as `ValueError("Decryption failed: " + str(e))`;
the modelled `str(e)` texts stand in for the library's message words. -/
def decrypt_value (ciphertext_b64 : String) (key : List Nat) (tag_size : Nat) :
    Except String String :=
  match b64decode ciphertext_b64 with
  | none => Except.error ("Decryption failed: " ++ "invalid base64")
  | some encrypted_data =>
    let nonce := encrypted_data.take 12
    let tag := (encrypted_data.drop 12).take tag_size
    let ciphertext := encrypted_data.drop (12 + tag_size)
    match aesGcmOpen key nonce (ciphertext ++ tag) [] with
    | none => Except.error ("Decryption failed: " ++ "decryption error")
    | some plaintext =>
      match utf8Decode plaintext with
      | none => Except.error ("Decryption failed: " ++ "utf-8 decode error")
      | some cs => Except.ok (String.mk cs)

/-- The per-entry loop of `main`: each `(secret_key, encrypted_value)` pair
yields one output line — the plaintext on success, the original encrypted
text on failure — plus the decrypted/failed counter increments. -/
def processEntries (key : List Nat) : List (String × String) → List (String × String) × Nat × Nat
  | [] => ([], 0, 0)
  | (k, v) :: rest =>
    let r := processEntries key rest
    match decrypt_value v key 16 with
    | Except.ok p => ((k, p) :: r.1, r.2.1 + 1, r.2.2)
    | Except.error _ => ((k, v) :: r.1, r.2.1, r.2.2 + 1)

/-- The service loop of `main`: services whose manifests directory is
missing, or whose secrets mapping is empty, are skipped; the rest are
processed in order with the counters accumulated across services. The
`dirExists` predicate stands for the `service_dir.exists()` file-system
check, and the typed entry list subsumes the `isinstance(..., dict)` test. -/
def reconcile (key : List Nat) (dirExists : String → Bool) :
    List (String × List (String × String)) → List (String × List (String × String)) × Nat × Nat
  | [] => ([], 0, 0)
  | (name, entries) :: rest =>
    let r := reconcile key dirExists rest
    if dirExists name then
      if entries.isEmpty then r
      else
        let p := processEntries key entries
        ((name, p.1) :: r.1, p.2.1 + r.2.1, p.2.2 + r.2.2)
    else r

/-- Modelled from the spec: the total number of secret entries across the
non-skipped services, the reference quantity of the BatchReport invariant. -/
def processedEntryCount (dirExists : String → Bool) :
    List (String × List (String × String)) → Nat
  | [] => 0
  | (name, entries) :: rest =>
    (if dirExists name ∧ entries.isEmpty = false then entries.length else 0) +
      processedEntryCount dirExists rest

/-- Whether an entry's blob decrypts successfully under `key`. -/
def decryptOk (key : List Nat) (e : String × String) : Bool :=
  match decrypt_value e.2 key 16 with
  | Except.ok _ => true
  | Except.error _ => false

/-- Modelled from the spec: the output record of one secret entry — the
plaintext on `Plaintext(p)`, the original encrypted blob text on `Failure`. -/
def entryOutcome (key : List Nat) (e : String × String) : String × String :=
  (e.1,
    match decrypt_value e.2 key 16 with
    | Except.ok p => p
    | Except.error _ => e.2)

/-- The data characters (no padding) of the Base64 encoding; proof auxiliary
for splitting `encodeChunks` into data and padding. -/
def b64Data : List Nat → List Char
  | [] => []
  | [a] => [b64Chr (a / 4), b64Chr (a % 4 * 16)]
  | [a, b] => [b64Chr (a / 4), b64Chr (a % 4 * 16 + b / 16), b64Chr (b % 16 * 4)]
  | a :: b :: c :: rest =>
    b64Chr (a / 4) :: b64Chr (a % 4 * 16 + b / 16) ::
    b64Chr (b % 16 * 4 + c / 64) :: b64Chr (c % 64) :: b64Data rest

/-- The number of `'='` padding characters of the Base64 encoding. -/
def b64PadCount : List Nat → Nat
  | [] => 0
  | [_] => 2
  | [_, _] => 1
  | _ :: _ :: _ :: rest => b64PadCount rest

/-! ### Helper lemmas -/

theorem eqCmp_spec (xs : List Nat) : ∀ ys : List Nat, xs.length = ys.length →
    eqCmp xs ys = (decide (xs = ys), min (commonPrefixLen xs ys + 1) xs.length) := by
  induction xs with
  | nil =>
    intro ys h
    cases ys with
    | nil => simp [eqCmp, commonPrefixLen]
    | cons y ys => simp at h
  | cons x xs ih =>
    intro ys h
    cases ys with
    | nil => simp at h
    | cons y ys =>
      simp only [List.length_cons, Nat.add_right_cancel_iff] at h
      by_cases hxy : x = y
      · subst hxy
        have h1 : decide (x :: xs = x :: ys) = decide (xs = ys) := by simp
        have h2 : commonPrefixLen (x :: xs) (x :: ys) = commonPrefixLen xs ys + 1 := by
          simp [commonPrefixLen]
        simp only [eqCmp, if_pos rfl, ih ys h, h1, h2, List.length_cons, if_true]
        simp only [Prod.mk.injEq, true_and]
        omega
      · simp [eqCmp, hxy, commonPrefixLen]

theorem bytesEq_spec (xs ys : List Nat) :
    bytesEq xs ys =
      (decide (xs = ys),
       if xs.length = ys.length then min (commonPrefixLen xs ys + 1) xs.length else 0) := by
  unfold bytesEq
  by_cases h : xs.length = ys.length
  · simp only [if_pos h, eqCmp_spec xs ys h]
  · have hne : xs ≠ ys := by intro he; exact h (by rw [he])
    simp [h, hne]

theorem bytesEq_fst (xs ys : List Nat) : (bytesEq xs ys).1 = decide (xs = ys) := by
  rw [bytesEq_spec]

theorem compressStep_length (st : List Nat) (kw : Nat × Nat) :
    (compressStep st kw).length = st.length := by
  unfold compressStep
  split
  · simp_all
  · rfl

theorem foldl_compressStep_length (l : List (Nat × Nat)) (st : List Nat) :
    (l.foldl compressStep st).length = st.length := by
  induction l generalizing st with
  | nil => rfl
  | cons kw l ih => rw [List.foldl_cons, ih, compressStep_length]

theorem sha256Compress_length (h blk : List Nat) (hh : h.length = 8) :
    (sha256Compress h blk).length = 8 := by
  unfold sha256Compress
  simp [List.length_zipWith, foldl_compressStep_length, hh]

theorem foldl_sha256Compress_length (blocks : List (List Nat)) (h : List Nat)
    (hh : h.length = 8) : (blocks.foldl sha256Compress h).length = 8 := by
  induction blocks generalizing h with
  | nil => exact hh
  | cons b blocks ih => rw [List.foldl_cons]; exact ih _ (sha256Compress_length _ _ hh)

theorem flatMap_w2b_length (l : List Nat) : (l.flatMap w2b).length = 4 * l.length := by
  induction l with
  | nil => rfl
  | cons w l ih => simp [w2b, ih]; omega

theorem sha256_length (msg : List Nat) : (sha256 msg).length = 32 := by
  unfold sha256
  rw [flatMap_w2b_length, foldl_sha256Compress_length _ _ (by rfl)]

theorem sha256_mem_lt (msg : List Nat) : ∀ b ∈ sha256 msg, b < 256 := by
  intro b hb
  unfold sha256 at hb
  rw [List.mem_flatMap] at hb
  obtain ⟨w, _, hw⟩ := hb
  simp only [w2b, List.mem_cons, List.mem_singleton, List.not_mem_nil, or_false] at hw
  rcases hw with h | h | h | h <;> omega

theorem hmacSha256_length (key msg : List Nat) : (hmacSha256 key msg).length = 32 :=
  sha256_length _

theorem hmacSha256_mem_lt (key msg : List Nat) : ∀ b ∈ hmacSha256 key msg, b < 256 :=
  sha256_mem_lt _

theorem zipXor_length (xs ys : List Nat) : (zipXor xs ys).length = min xs.length ys.length :=
  List.length_zipWith _ _ _

theorem zipXor_mem_lt (xs : List Nat) : ∀ ys : List Nat, (∀ x ∈ xs, x < 256) →
    (∀ y ∈ ys, y < 256) → ∀ b ∈ zipXor xs ys, b < 256 := by
  induction xs with
  | nil => intro ys _ _ b hb; simp [zipXor] at hb
  | cons x xs ih =>
    intro ys hx hy b hb
    cases ys with
    | nil => simp [zipXor] at hb
    | cons y ys =>
      simp only [zipXor, List.zipWith_cons_cons, List.mem_cons] at hb
      rcases hb with hb | hb
      · subst hb
        have h256 : (256 : Nat) = 2 ^ 8 := by norm_num
        rw [h256]
        exact Nat.xor_lt_two_pow (by rw [← h256]; exact hx x (by simp))
          (by rw [← h256]; exact hy y (by simp))
      · exact ih ys (fun a ha => hx a (by simp [ha])) (fun a ha => hy a (by simp [ha])) b hb

theorem pbkdf2Loop_fst_inv (pw : List Nat) (n : Nat) : ∀ acc u : List Nat,
    acc.length = 32 → (∀ b ∈ acc, b < 256) →
    ((pbkdf2Loop hmacSha256 pw n acc u).1.length = 32 ∧
      ∀ b ∈ (pbkdf2Loop hmacSha256 pw n acc u).1, b < 256) := by
  induction n with
  | zero => intro acc u hL hB; exact ⟨hL, hB⟩
  | succ n ih =>
    intro acc u hL hB
    simp only [pbkdf2Loop]
    refine ih _ _ ?_ ?_
    · rw [zipXor_length, hL, hmacSha256_length]; omega
    · exact zipXor_mem_lt _ _ hB (hmacSha256_mem_lt _ _)

theorem pbkdf2F_length (pw salt : List Nat) (c i : Nat) :
    (pbkdf2F hmacSha256 pw salt c i).length = 32 := by
  unfold pbkdf2F
  exact (pbkdf2Loop_fst_inv pw (c - 1) _ _ (hmacSha256_length _ _) (hmacSha256_mem_lt _ _)).1

theorem pbkdf2F_mem_lt (pw salt : List Nat) (c i : Nat) :
    ∀ b ∈ pbkdf2F hmacSha256 pw salt c i, b < 256 := by
  unfold pbkdf2F
  exact (pbkdf2Loop_fst_inv pw (c - 1) _ _ (hmacSha256_length _ _) (hmacSha256_mem_lt _ _)).2

theorem pbkdf2_32_eq (pw salt : List Nat) (c : Nat) :
    pbkdf2 hmacSha256 pw salt c 32 = pbkdf2F hmacSha256 pw salt c 1 := by
  unfold pbkdf2
  rw [show List.range ((32 + 31) / 32) = [0] from by decide]
  simp only [List.flatMap_cons, List.flatMap_nil, List.append_nil, Nat.zero_add]
  exact List.take_of_length_le (by rw [pbkdf2F_length])

theorem pbkdf2_32_length (pw salt : List Nat) (c : Nat) :
    (pbkdf2 hmacSha256 pw salt c 32).length = 32 := by
  rw [pbkdf2_32_eq, pbkdf2F_length]

theorem pbkdf2_32_mem_lt (pw salt : List Nat) (c : Nat) :
    ∀ b ∈ pbkdf2 hmacSha256 pw salt c 32, b < 256 := by
  rw [pbkdf2_32_eq]
  exact pbkdf2F_mem_lt pw salt c 1

theorem b64Val_b64Chr : ∀ n : Nat, n < 64 → b64Val (b64Chr n) = some n := by decide

theorem b64Alphabet_all_isB64 : ∀ c ∈ b64Alphabet, isB64 c = true := by decide

theorem isB64_b64Chr (n : Nat) : isB64 (b64Chr n) = true := by
  by_cases h : n < 64
  · rw [isB64, b64Val_b64Chr n h]; rfl
  · have hlen : b64Alphabet.length ≤ n := by
      have : b64Alphabet.length = 64 := by decide
      omega
    rw [b64Chr, List.getD_eq_default _ _ hlen]
    decide

theorem encodeChunks_eq_data_pads :
    ∀ bs : List Nat, encodeChunks bs = b64Data bs ++ List.replicate (b64PadCount bs) '=' := by
  intro bs
  induction bs using b64Data.induct with
  | case1 => rfl
  | case2 a => rfl
  | case3 a b => rfl
  | case4 a b c rest ih =>
    simp only [encodeChunks, b64Data, b64PadCount, ih, List.cons_append]

theorem b64Data_all_isB64 : ∀ bs : List Nat, ∀ x ∈ b64Data bs, isB64 x = true := by
  intro bs
  induction bs using b64Data.induct with
  | case1 => intro x hx; simp [b64Data] at hx
  | case2 a =>
    intro x hx
    simp only [b64Data, List.mem_cons, List.not_mem_nil, or_false] at hx
    rcases hx with h | h <;> (subst h; exact isB64_b64Chr _)
  | case3 a b =>
    intro x hx
    simp only [b64Data, List.mem_cons, List.not_mem_nil, or_false] at hx
    rcases hx with h | h | h <;> (subst h; exact isB64_b64Chr _)
  | case4 a b c rest ih =>
    intro x hx
    simp only [b64Data, List.mem_cons] at hx
    rcases hx with h | h | h | h | h
    · subst h; exact isB64_b64Chr _
    · subst h; exact isB64_b64Chr _
    · subst h; exact isB64_b64Chr _
    · subst h; exact isB64_b64Chr _
    · exact ih x h

theorem b64PadCount_le : ∀ bs : List Nat, b64PadCount bs ≤ 2 := by
  intro bs
  induction bs using b64PadCount.induct with
  | case1 => simp [b64PadCount]
  | case2 a => simp [b64PadCount]
  | case3 a b => simp [b64PadCount]
  | case4 a b c rest ih => simpa [b64PadCount] using ih

theorem b64Data_length_mod :
    ∀ bs : List Nat, ((b64Data bs).length + b64PadCount bs) % 4 = 0 := by
  intro bs
  induction bs using b64Data.induct with
  | case1 => rfl
  | case2 a => simp [b64Data, b64PadCount]
  | case3 a b => simp [b64Data, b64PadCount]
  | case4 a b c rest ih =>
    simp only [b64Data, b64PadCount, List.length_cons] at ih ⊢
    omega

theorem takeWhile_append_all (p : Char → Bool) (l1 : List Char) :
    ∀ l2 : List Char, (∀ x ∈ l1, p x = true) →
      (l1 ++ l2).takeWhile p = l1 ++ l2.takeWhile p := by
  induction l1 with
  | nil => intro l2 _; rfl
  | cons a l1 ih =>
    intro l2 h
    have ha : p a = true := h a (by simp)
    simp only [List.cons_append, List.takeWhile_cons, ha, if_true]
    rw [ih l2 (fun x hx => h x (by simp [hx]))]

theorem dropWhile_append_all (p : Char → Bool) (l1 : List Char) :
    ∀ l2 : List Char, (∀ x ∈ l1, p x = true) →
      (l1 ++ l2).dropWhile p = l2.dropWhile p := by
  induction l1 with
  | nil => intro l2 _; rfl
  | cons a l1 ih =>
    intro l2 h
    have ha : p a = true := h a (by simp)
    simp only [List.cons_append, List.dropWhile_cons, ha, if_true]
    exact ih l2 (fun x hx => h x (by simp [hx]))

theorem takeWhile_isB64_replicate (k : Nat) :
    (List.replicate k '=').takeWhile isB64 = [] := by
  cases k with
  | zero => rfl
  | succ k => simp [List.replicate_succ, List.takeWhile_cons, show isB64 '=' = false from by decide]

theorem dropWhile_isB64_replicate (k : Nat) :
    (List.replicate k '=').dropWhile isB64 = List.replicate k '=' := by
  cases k with
  | zero => rfl
  | succ k => simp [List.replicate_succ, List.dropWhile_cons, show isB64 '=' = false from by decide]

theorem decodeQuads_b64Data :
    ∀ bs : List Nat, (∀ x ∈ bs, x < 256) → decodeQuads (b64Data bs) = some bs := by
  intro bs
  induction bs using b64Data.induct with
  | case1 => intro _; rfl
  | case2 a =>
    intro h
    have ha : a < 256 := h a (by simp)
    simp [b64Data, decodeQuads, b64Val_b64Chr (a / 4) (by omega),
      b64Val_b64Chr (a % 4 * 16) (by omega)]
    omega
  | case3 a b =>
    intro h
    have ha : a < 256 := h a (by simp)
    have hb : b < 256 := h b (by simp)
    simp [b64Data, decodeQuads, b64Val_b64Chr (a / 4) (by omega),
      b64Val_b64Chr (a % 4 * 16 + b / 16) (by omega), b64Val_b64Chr (b % 16 * 4) (by omega)]
    constructor
    · omega
    · omega
  | case4 a b c rest ih =>
    intro h
    have ha : a < 256 := h a (by simp)
    have hb : b < 256 := h b (by simp)
    have hc : c < 256 := h c (by simp)
    have hrest : ∀ x ∈ rest, x < 256 := fun x hx => h x (by simp [hx])
    simp [b64Data, decodeQuads, b64Val_b64Chr (a / 4) (by omega),
      b64Val_b64Chr (a % 4 * 16 + b / 16) (by omega),
      b64Val_b64Chr (b % 16 * 4 + c / 64) (by omega), b64Val_b64Chr (c % 64) (by omega),
      ih hrest]
    refine ⟨by omega, by omega, by omega⟩

theorem b64decodeChars_encode (bs : List Nat) (h : ∀ x ∈ bs, x < 256) :
    b64decodeChars (encodeChunks bs) = some bs := by
  rw [encodeChunks_eq_data_pads]
  unfold b64decodeChars
  have hall : ∀ x ∈ b64Data bs ++ List.replicate (b64PadCount bs) '=',
      (isB64 x || decide (x = '=')) = true := by
    intro x hx
    rcases List.mem_append.mp hx with hx | hx
    · simp [b64Data_all_isB64 bs x hx]
    · simp [List.eq_of_mem_replicate hx]
  rw [List.filter_eq_self.mpr hall]
  dsimp only
  rw [takeWhile_append_all _ _ _ (b64Data_all_isB64 bs), takeWhile_isB64_replicate,
    List.append_nil]
  rw [dropWhile_append_all _ _ _ (b64Data_all_isB64 bs), dropWhile_isB64_replicate]
  rw [if_pos ⟨fun c hc => List.eq_of_mem_replicate hc,
    by rw [List.length_replicate]; exact b64PadCount_le bs,
    by rw [List.length_replicate]; exact b64Data_length_mod bs⟩]
  exact decodeQuads_b64Data bs h

theorem b64_roundtrip (bs : List Nat) (h : ∀ x ∈ bs, x < 256) :
    b64decode (b64encode bs) = some bs :=
  b64decodeChars_encode bs h

theorem processEntries_spec (key : List Nat) : ∀ es : List (String × String),
    processEntries key es =
      (es.map (entryOutcome key), es.countP (decryptOk key),
        es.countP (fun e => !decryptOk key e)) := by
  intro es
  induction es with
  | nil => rfl
  | cons e rest ih =>
    obtain ⟨k, v⟩ := e
    simp only [processEntries, ih]
    cases hdv : decrypt_value v key 16 with
    | ok p =>
      simp [entryOutcome, decryptOk, hdv, List.countP_cons]
    | error m =>
      simp [entryOutcome, decryptOk, hdv, List.countP_cons]

theorem processEntries_counts (key : List Nat) (es : List (String × String)) :
    (processEntries key es).2.1 + (processEntries key es).2.2 = es.length := by
  induction es with
  | nil => rfl
  | cons e rest ih =>
    obtain ⟨k, v⟩ := e
    simp only [processEntries]
    cases hdv : decrypt_value v key 16 <;> (simp only [List.length_cons]; omega)

/-! ### Claim theorems -/

/-- C1: for every password and every Base64 salt that decodes, the derived
key is exactly PBKDF2 with HMAC-SHA-256 over the UTF-8 password bytes and
the decoded salt, with 1,000,000 iterations and requested length 32, and
that output has exactly 32 bytes. Determinism is immediate: the derivation
is a pure function of `(password, salt)`. -/
theorem derive_key_matches_pbkdf2 (password salt : String) (sb : List Nat)
    (hs : b64decode salt = some sb) :
    derive_key_from_password password salt =
      some (pbkdf2 hmacSha256 (utf8Encode password) sb 1000000 32) ∧
    (pbkdf2 hmacSha256 (utf8Encode password) sb 1000000 32).length = 32 := by
  constructor
  · rw [derive_key_from_password, hs]; rfl
  · exact pbkdf2_32_length _ _ _

/-- Witness for C1 at the salt of twelve zero bytes. -/
theorem derive_key_matches_pbkdf2_witness :
    b64decode "AAAAAAAAAAAAAAAA" = some (List.replicate 12 0) ∧
    (derive_key_from_password "p" "AAAAAAAAAAAAAAAA" =
        some (pbkdf2 hmacSha256 (utf8Encode "p") (List.replicate 12 0) 1000000 32) ∧
      (pbkdf2 hmacSha256 (utf8Encode "p") (List.replicate 12 0) 1000000 32).length = 32) :=
  ⟨by decide,
   derive_key_matches_pbkdf2 "p" "AAAAAAAAAAAAAAAA" (List.replicate 12 0) (by decide)⟩

/-- C5 (counterexample): the salt `"AA=="` decodes to the single byte `[0]`,
whose length is not 12, yet `derive_key_from_password` succeeds — the code
performs no salt-length check at all, refuting the claim that a decoded
length other than 12 makes derivation fail. -/
theorem derive_no_salt_length_check :
    b64decode "AA==" = some [0] ∧ ([0] : List Nat).length ≠ 12 ∧
    (derive_key_from_password "password" "AA==").isSome = true := by
  refine ⟨by decide, by decide, ?_⟩
  rw [derive_key_from_password, show b64decode "AA==" = some [0] from by decide]
  rfl

/-- C5 (amended): derivation fails exactly when the salt is not valid
Base64 — the decode happens before PBKDF2 runs, and a successfully decoded
salt of any length (12 or not) is accepted. -/
theorem derive_fails_iff_salt_undecodable (password salt : String) :
    (derive_key_from_password password salt).isSome = (b64decode salt).isSome := by
  rcases h : b64decode salt with _ | sb
  · simp [derive_key_from_password, h]
  · simp [derive_key_from_password, h]

/-- C4: `verify_password` is a total boolean function (the embedding of its
catch-all exception handler), and malformed Base64 in the salt or in the
stored reference hash yields `false`, indistinguishable from a
wrong-password rejection. -/
theorem verify_malformed_input_false (password salt h : String)
    (hm : b64decode salt = none ∨ b64decode h = none) :
    verify_password password salt h = false := by
  rcases hm with hm | hm
  · have hd : derive_key_from_password password salt = none := by
      rw [derive_key_from_password, hm]; rfl
    unfold verify_password
    rw [hd]
  · unfold verify_password
    rw [hm]
    cases derive_key_from_password password salt <;> rfl

/-- Witness for C4 at the malformed salt `"A"`. -/
theorem verify_malformed_input_false_witness :
    b64decode "A" = none ∧ verify_password "x" "A" "AA==" = false :=
  ⟨by decide, verify_malformed_input_false "x" "A" "AA==" (Or.inl (by decide))⟩

/-- C9 (counterexample): against one and the same stored value `[0, 0, 1]`,
the derived value `[0, 0, 0]` (two matching leading bytes) and the derived
value `[1, 0, 0]` (no matching leading byte) make the script's
`==` comparison perform different numbers of byte comparisons — its running
time varies with the number of matching leading bytes, so it is not the
claimed constant-time check. -/
theorem bytes_eq_timing_varies :
    commonPrefixLen [0, 0, 0] [0, 0, 1] ≠ commonPrefixLen [1, 0, 0] [0, 0, 1] ∧
    (bytesEq [0, 0, 0] [0, 0, 1]).2 ≠ (bytesEq [1, 0, 0] [0, 0, 1]).2 := by decide

/-- C9 (amended): the comparison inside `verify_password` is CPython's
built-in bytes equality: its boolean result is exact byte-for-byte equality,
but it short-circuits — after the length check it performs
`min (commonPrefixLen + 1) length` byte comparisons, a quantity that grows
with the number of matching leading bytes, rather than a constant-time scan. -/
theorem bytes_eq_shortcircuit_spec (xs ys : List Nat) :
    (bytesEq xs ys).1 = decide (xs = ys) ∧
    (bytesEq xs ys).2 =
      if xs.length = ys.length then min (commonPrefixLen xs ys + 1) xs.length else 0 := by
  rw [bytesEq_spec]
  exact ⟨rfl, rfl⟩

/-- C10: `decrypt_value` either returns a plaintext or fails with a message
beginning `"Decryption failed: "` — every internal failure (bad Base64,
AEAD failure, non-UTF-8 plaintext) is normalised to that single shape and
nothing else escapes. -/
theorem decrypt_value_error_message_shape (blob : String) (key : List Nat) (ts : Nat) :
    (∃ p, decrypt_value blob key ts = Except.ok p) ∨
    (∃ m, decrypt_value blob key ts = Except.error ("Decryption failed: " ++ m)) := by
  unfold decrypt_value
  rcases hb : b64decode blob with _ | data
  · exact Or.inr ⟨"invalid base64", rfl⟩
  · dsimp only
    rcases hg : aesGcmOpen key (data.take 12) (data.drop (12 + ts) ++ (data.drop 12).take ts) []
      with _ | pt
    · exact Or.inr ⟨"decryption error", rfl⟩
    · rcases hu : utf8Decode pt with _ | cs
      · refine Or.inr ⟨"utf-8 decode error", ?_⟩
        simp only [hu]
      · refine Or.inl ⟨String.mk cs, ?_⟩
        simp only [hu]

/-- C2 (counterexample): the empty blob decodes to zero bytes (fewer than
28), yet `decrypt_value` does not return the specific
`"truncated ciphertext"` failure — the code has no minimum-length check and
the short input fails inside the AEAD layer with the generic
`"Decryption failed: ..."` message. -/
theorem truncated_ciphertext_message_refuted :
    b64decode "" = some [] ∧ ([] : List Nat).length < 28 ∧
    decrypt_value "" (List.replicate 32 0) 16 ≠ Except.error "truncated ciphertext" := by
  refine ⟨by decide, by decide, ?_⟩
  rw [show decrypt_value "" (List.replicate 32 0) 16 =
    Except.error ("Decryption failed: " ++ "decryption error") from rfl]
  intro hcontra
  exact absurd (Except.error.inj hcontra) (by decide)

/-- C2 (amended): a blob whose Base64 decoding yields fewer than 28 bytes
is still a failure for every key, but with no explicit length check: the
short slices flow into the AEAD call, which rejects them, and the outcome
is the generic `"Decryption failed: ..."` error, not a specific
`"truncated ciphertext"` one. -/
theorem short_blob_fails_generic (key : List Nat) (blob : String) (data : List Nat)
    (hb : b64decode blob = some data) (hlen : data.length < 28) :
    ∃ m, decrypt_value blob key 16 = Except.error ("Decryption failed: " ++ m) := by
  have hgcm :
      aesGcmOpen key (data.take 12) (data.drop (12 + 16) ++ (data.drop 12).take 16) [] = none := by
    unfold aesGcmOpen
    by_cases hk : key.length = 16 ∨ key.length = 24 ∨ key.length = 32
    · rw [if_pos hk]
      by_cases hn : (data.take 12).length = 0
      · rw [if_pos hn]
      · rw [if_neg hn]
        have hshort : (data.drop (12 + 16) ++ (data.drop 12).take 16).length < 16 := by
          simp only [List.length_append, List.length_drop, List.length_take]
          omega
        rw [if_pos hshort]
    · rw [if_neg hk]
  unfold decrypt_value
  rw [hb]
  dsimp only
  rw [hgcm]
  exact ⟨"decryption error", rfl⟩

/-- Witness for the amended C2 at the empty blob and the all-zero key. -/
theorem short_blob_fails_generic_witness :
    b64decode "" = some [] ∧ ([] : List Nat).length < 28 ∧
    ∃ m, decrypt_value "" (List.replicate 32 0) 16 =
      Except.error ("Decryption failed: " ++ m) :=
  ⟨by decide, by decide,
   short_blob_fails_generic (List.replicate 32 0) "" [] (by decide) (by decide)⟩

/-- C6: for every blob that decodes to at least 28 bytes, `decrypt_value`
splits the decoded bytes as `nonce = bytes[0:12]`, `tag = bytes[12:28]`,
`ciphertext = bytes[28:]` and performs AES-GCM decryption under the given
key with that nonce, the ciphertext followed by the tag, and no associated
data (`[]`), UTF-8-decoding the result. -/
theorem decrypt_split_and_aead (key : List Nat) (blob : String) (data : List Nat)
    (hb : b64decode blob = some data) (_hlen : 28 ≤ data.length) :
    decrypt_value blob key 16 =
      match aesGcmOpen key (data.take 12) (data.drop 28 ++ (data.take 28).drop 12) [] with
      | none => Except.error ("Decryption failed: " ++ "decryption error")
      | some plaintext =>
        match utf8Decode plaintext with
        | none => Except.error ("Decryption failed: " ++ "utf-8 decode error")
        | some cs => Except.ok (String.mk cs) := by
  have hsplit : (data.take 28).drop 12 = (data.drop 12).take 16 := by
    rw [List.drop_take]
  unfold decrypt_value
  rw [hb]
  dsimp only
  rw [hsplit, show (12 : Nat) + 16 = 28 from rfl]

/-- Witness for C6 at a 28-byte all-zero blob and the all-zero key. -/
theorem decrypt_split_and_aead_witness :
    b64decode "AAAAAAAAAAAAAAAAAAAAAAAAAAAAAAAAAAAAAA==" = some (List.replicate 28 0) ∧
    28 ≤ (List.replicate 28 (0 : Nat)).length ∧
    decrypt_value "AAAAAAAAAAAAAAAAAAAAAAAAAAAAAAAAAAAAAA==" (List.replicate 32 0) 16 =
      match aesGcmOpen (List.replicate 32 0) ((List.replicate 28 (0 : Nat)).take 12)
          ((List.replicate 28 (0 : Nat)).drop 28 ++
            ((List.replicate 28 (0 : Nat)).take 28).drop 12) [] with
      | none => Except.error ("Decryption failed: " ++ "decryption error")
      | some plaintext =>
        match utf8Decode plaintext with
        | none => Except.error ("Decryption failed: " ++ "utf-8 decode error")
        | some cs => Except.ok (String.mk cs) :=
  ⟨by decide, by decide,
   decrypt_split_and_aead (List.replicate 32 0) "AAAAAAAAAAAAAAAAAAAAAAAAAAAAAAAAAAAAAA=="
     (List.replicate 28 0) (by decide) (by decide)⟩

/-- C7: verifying a password against the Base64 encoding of its own derived
key succeeds: whenever derivation succeeds (the salt decodes),
`verify_password password salt (b64encode derivedKey) = true`. -/
theorem verify_of_derived_key_true (password salt : String) (K : List Nat)
    (hK : derive_key_from_password password salt = some K) :
    verify_password password salt (b64encode K) = true := by
  obtain ⟨sb, hsb⟩ : ∃ sb, b64decode salt = some sb := by
    rcases hb : b64decode salt with _ | sb
    · rw [derive_key_from_password, hb] at hK
      exact absurd hK (by simp)
    · exact ⟨sb, rfl⟩
  have hKval : K = pbkdf2 hmacSha256 (utf8Encode password) sb 1000000 32 := by
    rw [derive_key_from_password, hsb] at hK
    exact (Option.some.inj hK).symm
  have hbound : ∀ x ∈ K, x < 256 := by
    rw [hKval]
    exact pbkdf2_32_mem_lt _ _ _
  unfold verify_password
  rw [hK, b64_roundtrip K hbound]
  dsimp only
  rw [bytesEq_fst]
  simp

/-- Witness for C7 at password `"p"` and the salt of twelve zero bytes. -/
theorem verify_of_derived_key_true_witness :
    verify_password "p" "AAAAAAAAAAAAAAAA"
      (b64encode (pbkdf2 hmacSha256 (utf8Encode "p") (List.replicate 12 0) 1000000 32)) = true :=
  verify_of_derived_key_true "p" "AAAAAAAAAAAAAAAA" _ (by
    rw [derive_key_from_password,
      show b64decode "AAAAAAAAAAAAAAAA" = some (List.replicate 12 0) from by decide]
    rfl)

/-- C3: the reconciler's full characterisation — every non-skipped service
contributes exactly one output record per entry, in order; a successful
entry is recorded with its plaintext, a failed entry with its original
encrypted blob text; the succeeded/failed counters count exactly the
ok/error entries. Since each entry's record is a function of that entry
alone (a pointwise `map`), a `Failure` for one entry cannot alter any other
entry's outcome or abort the run. -/
theorem reconcile_outcomes_per_entry (key : List Nat) (dirExists : String → Bool)
    (services : List (String × List (String × String))) :
    reconcile key dirExists services =
      ((services.filter (fun s => dirExists s.1 && !s.2.isEmpty)).map
          (fun s => (s.1, s.2.map (entryOutcome key))),
        ((services.filter (fun s => dirExists s.1 && !s.2.isEmpty)).map
          (fun s => s.2.countP (decryptOk key))).sum,
        ((services.filter (fun s => dirExists s.1 && !s.2.isEmpty)).map
          (fun s => s.2.countP (fun e => !decryptOk key e))).sum) := by
  induction services with
  | nil => rfl
  | cons s rest ih =>
    obtain ⟨name, entries⟩ := s
    by_cases hd : dirExists name = true
    · by_cases he : entries.isEmpty = true
      · simp [reconcile, ih, List.filter_cons, hd, he]
      · simp [reconcile, ih, List.filter_cons, hd, he, processEntries_spec]
    · simp [reconcile, ih, List.filter_cons, hd]

/-- C8: after reconciling, succeeded plus failed equals the total number of
secret entries across the non-skipped services. -/
theorem reconcile_counts_sum_total (key : List Nat) (dirExists : String → Bool)
    (services : List (String × List (String × String))) :
    (reconcile key dirExists services).2.1 + (reconcile key dirExists services).2.2 =
      processedEntryCount dirExists services := by
  induction services with
  | nil => rfl
  | cons s rest ih =>
    obtain ⟨name, entries⟩ := s
    by_cases hd : dirExists name = true
    · by_cases he : entries.isEmpty = true
      · simp [reconcile, processedEntryCount, hd, he, ih]
      · have hc := processEntries_counts key entries
        have he' : entries.isEmpty = false := by
          revert he
          cases entries.isEmpty <;> simp
        simp [reconcile, processedEntryCount, hd, he']
        omega
    · simp [reconcile, processedEntryCount, hd, ih]
